import Mathlib

/-
Verification of the byte-level BPE tokenizer in src/model.py
(class BPEPunjabiTokenizer).

Embedding conventions:
* Text is represented by its UTF-8 byte sequence, a `List Nat` whose
  elements are < 256.  Python's `text.encode("utf-8")` is the identity on
  this representation, and `bytes.decode("utf-8", errors="replace")` is its
  left inverse on byte sequences that came from valid UTF-8 text, so the
  round-trip claims are stated at the byte level.
* Python dicts (which preserve insertion order) are modelled as association
  lists: `dictGet` is `d[k]` / `d.get(k)`, `dictSet` is `d[k] = v`
  (update in place if the key exists, append otherwise).
* Python exceptions raised by the tokenizer core are modelled with
  `Except`: the `KeyError` from a missing vocab key, the
  `ZeroDivisionError` from the final compression-ratio report in
  `train_bpe` (line 80: `len(tokens) / len(ids)`), and the `KeyError`
  raised by `decode` on an id absent from the vocabulary (the spec's
  `UnknownTokenId`).
* The unbounded `while` loop of `encode` is embedded with explicit fuel;
  fuel `tokens.length` is proved sufficient (the loop strictly shrinks the
  sequence), so `encode` computes exactly what the Python loop computes.
* The optional `sample_size` truncation only shortens the corpus before
  byte conversion; all training theorems quantify over an arbitrary byte
  sequence, which subsumes every truncation.
-/

set_option maxRecDepth 40000

namespace BPETok

abbrev ByteSeq := List Nat

abbrev Pair := Nat × Nat

abbrev Vocab := List (Nat × ByteSeq)

abbrev Merges := List (Pair × Nat)

/-- Lookup in a Python dict modelled as an association list (`d.get(k)`). -/
def dictGet {α β : Type} [DecidableEq α] : List (α × β) → α → Option β
  | [], _ => none
  | (k', v) :: rest, k => if k' = k then some v else dictGet rest k

/-- Assignment `d[k] = v` on a Python dict: update the existing entry in
place (keeping its position) or append a fresh entry at the end. -/
def dictSet {α β : Type} [DecidableEq α] : List (α × β) → α → β → List (α × β)
  | [], k, v => [(k, v)]
  | (k', v') :: rest, k, v =>
    if k' = k then (k, v) :: rest else (k', v') :: dictSet rest k v

/-- One step of `get_stats`: `counts[pair] = counts.get(pair, 0) + 1`. -/
def bump (d : List (Pair × Nat)) (p : Pair) : List (Pair × Nat) :=
  match d with
  | [] => [(p, 1)]
  | (q, c) :: rest => if q = p then (q, c + 1) :: rest else (q, c) :: bump rest p

/-- `get_stats` (model.py lines 31-36): count adjacent pairs of `ids`,
keys in first-occurrence order as a Python dict would hold them. -/
def get_stats (ids : List Nat) : List (Pair × Nat) :=
  (ids.zip ids.tail).foldl bump []

/-- Python's `max(stats, key=stats.get)`: the first key attaining the
maximal count, scanning in dict iteration order; `None` on an empty dict
(where CPython would raise `ValueError`, reached only on an empty stats
dict). -/
def pyMax (l : List (Pair × Nat)) : Option Pair :=
  match l with
  | [] => none
  | x :: xs => some (xs.foldl (fun best y => if best.2 < y.2 then y else best) x).1

/-- The `merge` method (model.py lines 38-49): replace every leftmost
non-overlapping occurrence of `pair` in `ids` by `idx`, in one
left-to-right pass. -/
def merge (ids : List Nat) (pair : Pair) (idx : Nat) : List Nat :=
  match ids with
  | a :: b :: rest =>
    if a = pair.1 ∧ b = pair.2 then idx :: merge rest pair idx
    else a :: merge (b :: rest) pair idx
  | other => other

/-- The dict comprehension `{idx: bytes([idx]) for idx in range(n)}`. -/
def vocabRange : Nat → Vocab
  | 0 => []
  | n + 1 => vocabRange n ++ [(n, [n])]

/-- The 256-entry base vocabulary seeded at the start of `train_bpe`
(model.py line 53). -/
def baseVocab : Vocab := vocabRange 256

/-- Exceptions observable from `train_bpe`: `KeyError` from a vocab lookup
of a missing id, and `ZeroDivisionError` from the compression-ratio print
(model.py line 80) when the final working sequence is empty. -/
inductive TrainErr where
  | keyError : TrainErr
  | zeroDivision : TrainErr
deriving DecidableEq

/-- The training loop of `train_bpe` (model.py lines 65-78).  `fuel` is the
number of remaining iterations of `for i in range(num_merges)` and `i` the
current iteration index.  Each round: compute stats, break if empty, pick
the most frequent pair, set `idx = len(vocab) + i`, rewrite the sequence,
record the merge and extend the vocabulary. -/
def trainLoop : Nat → Nat → Vocab → Merges → List Nat →
    Except TrainErr (Vocab × Merges × List Nat)
  | 0, _, vocab, merges, ids => .ok (vocab, merges, ids)
  | fuel + 1, i, vocab, merges, ids =>
    match pyMax (get_stats ids) with
    | none => .ok (vocab, merges, ids)
    | some pair =>
      match dictGet vocab pair.1, dictGet vocab pair.2 with
      | some v1, some v2 =>
        trainLoop fuel (i + 1)
          (dictSet vocab (vocab.length + i) (v1 ++ v2))
          (dictSet merges pair (vocab.length + i))
          (merge ids pair (vocab.length + i))
      | _, _ => .error .keyError

/-- `train_bpe` (model.py lines 51-81) on the byte sequence of the
(possibly truncated) corpus, keeping the final working sequence.
`num_merges = max_vocab_size - 256` with Python's empty `range` on a
negative argument matching truncated Nat subtraction.  After the loop the
compression-ratio print divides by `len(ids)`, raising `ZeroDivisionError`
when the final sequence is empty. -/
def train_full (tokens : List Nat) (max_vocab_size : Nat) :
    Except TrainErr (Vocab × Merges × List Nat) :=
  match trainLoop (max_vocab_size - 256) 0 baseVocab [] tokens with
  | .error e => .error e
  | .ok (vocab, merges, ids) =>
    if ids.length = 0 then .error .zeroDivision else .ok (vocab, merges, ids)

/-- `train_bpe`'s returned value `(self.vocab, self.merges)`. -/
def train_bpe (tokens : List Nat) (max_vocab_size : Nat) :
    Except TrainErr (Vocab × Merges) :=
  match train_full tokens max_vocab_size with
  | .error e => .error e
  | .ok (vocab, merges, _) => .ok (vocab, merges)

/-- Comparison of `merges.get(p, float("inf"))` values: `none` plays the
role of infinity. -/
def rankLt : Option Nat → Option Nat → Bool
  | some a, some b => decide (a < b)
  | some _, none => true
  | none, _ => false

/-- Python's `min(stats, key=lambda p: merges.get(p, float("inf")))`: the
first key (in dict iteration order) attaining the minimal rank. -/
def pyMin (merges : Merges) (stats : List (Pair × Nat)) : Option Pair :=
  match stats.map Prod.fst with
  | [] => none
  | p :: ps =>
    some (ps.foldl
      (fun best q => if rankLt (dictGet merges q) (dictGet merges best) then q else best) p)

/-- One iteration of the `encode` loop (model.py lines 91-97): `none` means
the loop stops (sequence shorter than 2, or the selected pair is not in
the merge table), `some` gives the rewritten sequence. -/
def encodeStep (merges : Merges) (tokens : List Nat) : Option (List Nat) :=
  if tokens.length < 2 then none
  else
    match pyMin merges (get_stats tokens) with
    | none => none
    | some pair =>
      match dictGet merges pair with
      | none => none
      | some idx => some (merge tokens pair idx)

/-- The `while len(tokens) >= 2` loop of `encode`, with explicit fuel; fuel
`tokens.length` is proved sufficient below. -/
def encodeLoop : Nat → Merges → List Nat → List Nat
  | 0, _, tokens => tokens
  | fuel + 1, merges, tokens =>
    match encodeStep merges tokens with
    | none => tokens
    | some next => encodeLoop fuel merges next

/-- `encode` (model.py lines 85-98) on the byte sequence of the input
text. -/
def encode (merges : Merges) (textBytes : List Nat) : List Nat :=
  encodeLoop textBytes.length merges textBytes

/-- The exception `decode` raises on an id absent from the vocabulary
(Python `KeyError`; the spec's `UnknownTokenId`). -/
inductive DecodeErr where
  | unknownTokenId : DecodeErr
deriving DecidableEq

/-- `decode` (model.py lines 100-107): concatenate each id's byte
expansion left to right, failing at the first id absent from the
vocabulary.  The final lossy UTF-8 text conversion is the identity on the
byte level. -/
def decode (vocab : Vocab) : List Nat → Except DecodeErr (List Nat)
  | [] => .ok []
  | id :: rest =>
    match dictGet vocab id with
    | none => .error .unknownTokenId
    | some v =>
      match decode vocab rest with
      | .error e => .error e
      | .ok out => .ok (v ++ out)

theorem dictGet_dictSet_self {α β : Type} [DecidableEq α] (d : List (α × β)) (k : α) (v : β) :
    dictGet (dictSet d k v) k = some v := by
  induction d with
  | nil => simp [dictGet, dictSet]
  | cons hd tl ih =>
    obtain ⟨k', v'⟩ := hd
    by_cases h : k' = k
    · subst h
      simp [dictGet, dictSet]
    · simp [dictGet, dictSet, h, ih]

theorem dictGet_dictSet_ne {α β : Type} [DecidableEq α] (d : List (α × β)) (k k' : α) (v : β)
    (h : k' ≠ k) : dictGet (dictSet d k v) k' = dictGet d k' := by
  induction d with
  | nil =>
    simp [dictGet, dictSet, h.symm]
  | cons hd tl ih =>
    obtain ⟨k'', v''⟩ := hd
    by_cases h2 : k'' = k
    · subst h2
      simp [dictGet, dictSet, h.symm]
    · simp [dictGet, dictSet, h2, ih]

theorem dictSet_length_of_get_none {α β : Type} [DecidableEq α] (d : List (α × β)) (k : α)
    (v : β) (h : dictGet d k = none) : (dictSet d k v).length = d.length + 1 := by
  induction d with
  | nil => simp [dictSet]
  | cons hd tl ih =>
    obtain ⟨k', v'⟩ := hd
    by_cases h2 : k' = k
    · simp [dictGet, h2] at h
    · simp only [dictGet, h2, if_false] at h
      simp [dictSet, h2, ih h]

theorem dictGet_dictSet_isSome {α β : Type} [DecidableEq α] (d : List (α × β)) (k k' : α)
    (v : β) (h : (dictGet (dictSet d k v) k').isSome) :
    k' = k ∨ (dictGet d k').isSome := by
  by_cases h2 : k' = k
  · exact Or.inl h2
  · rw [dictGet_dictSet_ne d k k' v h2] at h
    exact Or.inr h

theorem dictGet_append_of_some {α β : Type} [DecidableEq α] (d1 d2 : List (α × β)) (k : α)
    (v : β) (h : dictGet d1 k = some v) : dictGet (d1 ++ d2) k = some v := by
  induction d1 with
  | nil => simp [dictGet] at h
  | cons hd tl ih =>
    obtain ⟨k', v'⟩ := hd
    by_cases h2 : k' = k
    · simp_all [dictGet]
    · simp only [dictGet, h2, if_false] at h
      simpa [dictGet, h2] using ih h

theorem dictGet_append_of_none {α β : Type} [DecidableEq α] (d1 d2 : List (α × β)) (k : α)
    (h : dictGet d1 k = none) : dictGet (d1 ++ d2) k = dictGet d2 k := by
  induction d1 with
  | nil => simp [dictGet]
  | cons hd tl ih =>
    obtain ⟨k', v'⟩ := hd
    by_cases h2 : k' = k
    · simp [dictGet, h2] at h
    · simp only [dictGet, h2, if_false] at h
      simpa [dictGet, h2] using ih h

theorem vocabRange_length (n : Nat) : (vocabRange n).length = n := by
  induction n with
  | zero => rfl
  | succ n ih => simp [vocabRange, ih]

theorem dictGet_vocabRange (n k : Nat) :
    dictGet (vocabRange n) k = if k < n then some [k] else none := by
  induction n with
  | zero => simp [vocabRange, dictGet]
  | succ n ih =>
    rw [vocabRange]
    by_cases h : k < n
    · rw [dictGet_append_of_some (vocabRange n) [(n, [n])] k [k] (by rw [ih]; simp [h])]
      simp [Nat.lt_succ_of_lt h]
    · rw [dictGet_append_of_none (vocabRange n) [(n, [n])] k (by rw [ih]; simp [h])]
      by_cases h2 : k = n
      · subst h2
        simp [dictGet]
      · have h3 : ¬ k < n + 1 := by omega
        have h4 : ¬ n = k := fun hh => h2 hh.symm
        simp [dictGet, h3, h4]

theorem baseVocab_get (b : Nat) (h : b < 256) : dictGet baseVocab b = some [b] := by
  rw [baseVocab, dictGet_vocabRange]
  simp [h]

theorem merge_length_le (p : Pair) (idx : Nat) :
    ∀ (n : Nat) (ids : List Nat), ids.length ≤ n → (merge ids p idx).length ≤ ids.length := by
  intro n
  induction n with
  | zero =>
    intro ids h
    have : ids = [] := List.eq_nil_of_length_eq_zero (Nat.le_zero.mp h)
    subst this
    simp [merge]
  | succ n ih =>
    intro ids h
    rcases ids with _ | ⟨a, _ | ⟨b, rest⟩⟩
    · simp [merge]
    · simp [merge]
    · rw [merge]
      by_cases hc : a = p.1 ∧ b = p.2
      · rw [if_pos hc]
        have hr : rest.length ≤ n := by
          simp only [List.length_cons] at h
          omega
        have := ih rest hr
        simp only [List.length_cons]
        omega
      · rw [if_neg hc]
        have hr : (b :: rest).length ≤ n := by
          simp only [List.length_cons] at h ⊢
          omega
        have := ih (b :: rest) hr
        simp only [List.length_cons] at this ⊢
        omega

theorem merge_length_lt (p : Pair) (idx : Nat) :
    ∀ (n : Nat) (ids : List Nat), ids.length ≤ n → p ∈ ids.zip ids.tail →
      (merge ids p idx).length < ids.length := by
  intro n
  induction n with
  | zero =>
    intro ids h hmem
    have : ids = [] := List.eq_nil_of_length_eq_zero (Nat.le_zero.mp h)
    subst this
    simp at hmem
  | succ n ih =>
    intro ids h hmem
    rcases ids with _ | ⟨a, _ | ⟨b, rest⟩⟩
    · simp at hmem
    · simp at hmem
    · rw [merge]
      by_cases hc : a = p.1 ∧ b = p.2
      · rw [if_pos hc]
        have := merge_length_le p idx rest.length rest (le_refl _)
        simp only [List.length_cons]
        omega
      · rw [if_neg hc]
        have hp : p ∈ (b :: rest).zip (b :: rest).tail := by
          simp only [List.zip_cons_cons, List.tail_cons, List.mem_cons] at hmem
          rcases hmem with h1 | h1
          · exact absurd ⟨congrArg Prod.fst h1.symm, congrArg Prod.snd h1.symm⟩ hc
          · simpa using h1
        have hr : (b :: rest).length ≤ n := by
          simp only [List.length_cons] at h ⊢
          omega
        have := ih (b :: rest) hr hp
        simp only [List.length_cons] at this ⊢
        omega

theorem mem_bump_keys (d : List (Pair × Nat)) (p q : Pair) :
    q ∈ (bump d p).map Prod.fst ↔ q ∈ d.map Prod.fst ∨ q = p := by
  induction d with
  | nil => simp [bump]
  | cons hd tl ih =>
    obtain ⟨r, c⟩ := hd
    by_cases h : r = p
    · subst h
      simp [bump]
      tauto
    · simp [bump, h, ih]
      tauto

theorem mem_foldl_bump_keys (l : List Pair) (acc : List (Pair × Nat)) (q : Pair) :
    q ∈ (l.foldl bump acc).map Prod.fst ↔ q ∈ acc.map Prod.fst ∨ q ∈ l := by
  induction l generalizing acc with
  | nil => simp
  | cons x xs ih =>
    rw [List.foldl_cons, ih, mem_bump_keys]
    simp [List.mem_cons]
    tauto

theorem mem_get_stats_keys (ids : List Nat) (q : Pair) :
    q ∈ (get_stats ids).map Prod.fst ↔ q ∈ ids.zip ids.tail := by
  rw [get_stats, mem_foldl_bump_keys]
  simp

theorem pyMax_eq_none (l : List (Pair × Nat)) (h : pyMax l = none) : l = [] := by
  cases l with
  | nil => rfl
  | cons x xs => simp [pyMax] at h

theorem get_stats_nil_of_pyMax_none (ids : List Nat) (h : pyMax (get_stats ids) = none) :
    ids.zip ids.tail = [] := by
  have hs := pyMax_eq_none _ h
  rcases hzip : ids.zip ids.tail with _ | ⟨q, rest⟩
  · rfl
  · have : q ∈ (get_stats ids).map Prod.fst := by
      rw [mem_get_stats_keys, hzip]
      exact List.mem_cons_self q rest
    rw [hs] at this
    simp at this

theorem rankLt_irrefl (a : Option Nat) : rankLt a a = false := by
  cases a <;> simp [rankLt]

theorem rankLt_trans {a b c : Option Nat} (h1 : rankLt a b = true) (h2 : rankLt b c = true) :
    rankLt a c = true := by
  cases a <;> cases b <;> cases c <;> simp [rankLt] at * <;> omega

theorem rankLt_of_not_of_lt {a b c : Option Nat} (h1 : rankLt a b = false)
    (h2 : rankLt a c = true) : rankLt b c = true := by
  cases a <;> cases b <;> cases c <;> simp [rankLt] at * <;> omega

theorem foldl_min_mem (r : Pair → Option Nat) (l : List Pair) (b : Pair) :
    l.foldl (fun best q => if rankLt (r q) (r best) then q else best) b ∈ b :: l := by
  induction l generalizing b with
  | nil => simp
  | cons x xs ih =>
    simp only [List.foldl_cons]
    by_cases h : rankLt (r x) (r b)
    · rw [if_pos h]
      have := ih x
      simp [List.mem_cons] at this ⊢
      tauto
    · rw [if_neg (by simpa using h)]
      have := ih b
      simp [List.mem_cons] at this ⊢
      tauto

theorem foldl_min_not_lt (r : Pair → Option Nat) (l : List Pair) (b : Pair) :
    ∀ x ∈ b :: l,
      rankLt (r x) (r (l.foldl (fun best q => if rankLt (r q) (r best) then q else best) b))
        = false := by
  induction l generalizing b with
  | nil =>
    intro x hx
    simp at hx
    rw [hx]
    exact rankLt_irrefl (r b)
  | cons q qs ih =>
    intro x hx
    simp only [List.foldl_cons]
    by_cases hc : rankLt (r q) (r b)
    · rw [if_pos hc]
      rcases (by simpa [List.mem_cons] using hx : x = b ∨ x = q ∨ x ∈ qs) with h1 | h1 | h1
      · rw [h1]
        have hq := ih q q (List.mem_cons_self q qs)
        by_contra hcon
        simp only [Bool.not_eq_false] at hcon
        exact absurd (rankLt_trans hc hcon) (by simp [hq])
      · rw [h1]
        exact ih q q (List.mem_cons_self q qs)
      · exact ih q x (List.mem_cons_of_mem q h1)
    · rw [if_neg (by simpa using hc)]
      rcases (by simpa [List.mem_cons] using hx : x = b ∨ x = q ∨ x ∈ qs) with h1 | h1 | h1
      · rw [h1]
        exact ih b b (List.mem_cons_self b qs)
      · rw [h1]
        have hb := ih b b (List.mem_cons_self b qs)
        by_contra hcon
        simp only [Bool.not_eq_false] at hcon
        exact absurd (rankLt_of_not_of_lt (by simpa using hc) hcon) (by simp [hb])
      · exact ih b x (List.mem_cons_of_mem b h1)

theorem pyMin_mem (merges : Merges) (stats : List (Pair × Nat)) (p : Pair)
    (h : pyMin merges stats = some p) : p ∈ stats.map Prod.fst := by
  unfold pyMin at h
  cases hm : stats.map Prod.fst with
  | nil =>
    rw [hm] at h
    simp at h
  | cons p0 ps =>
    rw [hm] at h
    simp only [Option.some.injEq] at h
    rw [← h]
    exact foldl_min_mem (fun q => dictGet merges q) ps p0

theorem pyMin_not_lt (merges : Merges) (stats : List (Pair × Nat)) (p : Pair)
    (h : pyMin merges stats = some p) :
    ∀ q ∈ stats.map Prod.fst, rankLt (dictGet merges q) (dictGet merges p) = false := by
  unfold pyMin at h
  cases hm : stats.map Prod.fst with
  | nil =>
    rw [hm] at h
    simp at h
  | cons p0 ps =>
    rw [hm] at h
    simp only [Option.some.injEq] at h
    intro q hq
    rw [← h]
    exact foldl_min_not_lt (fun q => dictGet merges q) ps p0 q hq

theorem pyMin_min_le (merges : Merges) (stats : List (Pair × Nat)) (p q : Pair) (j : Nat)
    (h : pyMin merges stats = some p) (hq : q ∈ stats.map Prod.fst)
    (hj : dictGet merges q = some j) :
    ∃ i0, dictGet merges p = some i0 ∧ i0 ≤ j := by
  have hlt := pyMin_not_lt merges stats p h q hq
  rw [hj] at hlt
  cases hp : dictGet merges p with
  | none =>
    rw [hp] at hlt
    simp [rankLt] at hlt
  | some i0 =>
    rw [hp] at hlt
    simp [rankLt] at hlt
    exact ⟨i0, rfl, hlt⟩

theorem pyMin_eq_none (merges : Merges) (stats : List (Pair × Nat))
    (h : pyMin merges stats = none) : stats.map Prod.fst = [] := by
  unfold pyMin at h
  cases hm : stats.map Prod.fst with
  | nil => rfl
  | cons p0 ps =>
    rw [hm] at h
    simp at h

theorem zip_tail_nil_of_short (tokens : List Nat) (h : tokens.length < 2) :
    tokens.zip tokens.tail = [] := by
  rcases tokens with _ | ⟨a, _ | ⟨b, rest⟩⟩
  · rfl
  · rfl
  · simp only [List.length_cons] at h
    omega

theorem encodeStep_some_inv (merges : Merges) (tokens t' : List Nat)
    (h : encodeStep merges tokens = some t') :
    ∃ pair idx, dictGet merges pair = some idx ∧ pair ∈ tokens.zip tokens.tail ∧
      (∀ q ∈ tokens.zip tokens.tail, ∀ j, dictGet merges q = some j → idx ≤ j) ∧
      t' = merge tokens pair idx := by
  unfold encodeStep at h
  by_cases hlen : tokens.length < 2
  · simp [hlen] at h
  · rw [if_neg hlen] at h
    split at h
    · simp at h
    · rename_i pair hmin
      split at h
      · simp at h
      · rename_i idx hget
        simp only [Option.some.injEq] at h
        refine ⟨pair, idx, hget, ?_, ?_, h.symm⟩
        · rw [← mem_get_stats_keys]
          exact pyMin_mem merges (get_stats tokens) pair hmin
        · intro q hq j hj
          have hqk : q ∈ (get_stats tokens).map Prod.fst := by
            rw [mem_get_stats_keys]
            exact hq
          obtain ⟨i0, hi0, hle⟩ := pyMin_min_le merges (get_stats tokens) pair q j hmin hqk hj
          rw [hget] at hi0
          simp only [Option.some.injEq] at hi0
          omega

theorem encodeStep_none_iff (merges : Merges) (tokens : List Nat) :
    encodeStep merges tokens = none ↔ ∀ q ∈ tokens.zip tokens.tail, dictGet merges q = none := by
  constructor
  · intro h q hq
    unfold encodeStep at h
    by_cases hlen : tokens.length < 2
    · rw [zip_tail_nil_of_short tokens hlen] at hq
      simp at hq
    · rw [if_neg hlen] at h
      split at h
      · rename_i hmin
        have := pyMin_eq_none merges (get_stats tokens) hmin
        have hqk : q ∈ (get_stats tokens).map Prod.fst := by
          rw [mem_get_stats_keys]
          exact hq
        rw [this] at hqk
        simp at hqk
      · rename_i pair hmin
        split at h
        · rename_i hget
          cases hj : dictGet merges q with
          | none => rfl
          | some j =>
            have hqk : q ∈ (get_stats tokens).map Prod.fst := by
              rw [mem_get_stats_keys]
              exact hq
            obtain ⟨i0, hi0, _⟩ :=
              pyMin_min_le merges (get_stats tokens) pair q j hmin hqk hj
            rw [hget] at hi0
            simp at hi0
        · simp at h
  · intro hall
    unfold encodeStep
    by_cases hlen : tokens.length < 2
    · rw [if_pos hlen]
    · rw [if_neg hlen]
      split
      · rfl
      · rename_i pair hmin
        have hmem : pair ∈ tokens.zip tokens.tail := by
          rw [← mem_get_stats_keys]
          exact pyMin_mem merges (get_stats tokens) pair hmin
        rw [hall pair hmem]

theorem encodeStep_length_lt (merges : Merges) (tokens t' : List Nat)
    (h : encodeStep merges tokens = some t') : t'.length < tokens.length := by
  obtain ⟨pair, idx, _, hmem, _, ht⟩ := encodeStep_some_inv merges tokens t' h
  rw [ht]
  exact merge_length_lt pair idx tokens.length tokens (le_refl _) hmem

theorem encodeLoop_of_step_none (merges : Merges) (tokens : List Nat) (fuel : Nat)
    (h : encodeStep merges tokens = none) : encodeLoop fuel merges tokens = tokens := by
  cases fuel with
  | zero => rfl
  | succ n => simp [encodeLoop, h]

theorem encodeLoop_fuel_congr (merges : Merges) :
    ∀ (fuel1 fuel2 : Nat) (tokens : List Nat), tokens.length ≤ fuel1 → tokens.length ≤ fuel2 →
      encodeLoop fuel1 merges tokens = encodeLoop fuel2 merges tokens := by
  intro fuel1
  induction fuel1 with
  | zero =>
    intro fuel2 tokens h1 h2
    have htok : tokens = [] := List.eq_nil_of_length_eq_zero (Nat.le_zero.mp h1)
    subst htok
    have hstep : encodeStep merges [] = none := by simp [encodeStep]
    rw [encodeLoop_of_step_none merges [] 0 hstep, encodeLoop_of_step_none merges [] fuel2 hstep]
  | succ n ih =>
    intro fuel2 tokens h1 h2
    cases hstep : encodeStep merges tokens with
    | none =>
      rw [encodeLoop_of_step_none merges tokens (n + 1) hstep,
        encodeLoop_of_step_none merges tokens fuel2 hstep]
    | some t' =>
      have hlt := encodeStep_length_lt merges tokens t' hstep
      cases fuel2 with
      | zero =>
        have : tokens = [] := List.eq_nil_of_length_eq_zero (Nat.le_zero.mp h2)
        subst this
        simp at hlt
      | succ m =>
        simp only [encodeLoop, hstep]
        exact ih m t' (by omega) (by omega)

theorem decode_ok_of_base (vocab : Vocab) (hbase : ∀ b, b < 256 → dictGet vocab b = some [b]) :
    ∀ bs : List Nat, (∀ b ∈ bs, b < 256) → decode vocab bs = .ok bs := by
  intro bs
  induction bs with
  | nil => intro _; rfl
  | cons b rest ih =>
    intro hb
    have h1 : b < 256 := hb b (List.mem_cons_self b rest)
    have h2 : decode vocab rest = .ok rest := ih fun x hx => hb x (List.mem_cons_of_mem b hx)
    simp [decode, hbase b h1, h2]

theorem decode_merge_eq (vocab : Vocab) (pair : Pair) (idx : Nat) (v1 v2 : ByteSeq)
    (h1 : dictGet vocab pair.1 = some v1) (h2 : dictGet vocab pair.2 = some v2)
    (h3 : dictGet vocab idx = some (v1 ++ v2)) :
    ∀ (n : Nat) (ids : List Nat), ids.length ≤ n →
      decode vocab (merge ids pair idx) = decode vocab ids := by
  intro n
  induction n with
  | zero =>
    intro ids h
    have : ids = [] := List.eq_nil_of_length_eq_zero (Nat.le_zero.mp h)
    subst this
    rfl
  | succ n ih =>
    intro ids h
    rcases ids with _ | ⟨a, _ | ⟨b, rest⟩⟩
    · rfl
    · rfl
    · rw [merge]
      by_cases hc : a = pair.1 ∧ b = pair.2
      · rw [if_pos hc]
        have ha : dictGet vocab a = some v1 := by rw [hc.1]; exact h1
        have hb : dictGet vocab b = some v2 := by rw [hc.2]; exact h2
        have hrest : rest.length ≤ n := by
          simp only [List.length_cons] at h
          omega
        rw [show decode vocab (idx :: merge rest pair idx) =
            match dictGet vocab idx with
            | none => .error .unknownTokenId
            | some v =>
              match decode vocab (merge rest pair idx) with
              | .error e => .error e
              | .ok out => .ok (v ++ out) from rfl]
        rw [h3, ih rest hrest]
        cases hdec : decode vocab rest with
        | error e => simp [decode, ha, hb, hdec]
        | ok out => simp [decode, ha, hb, hdec, List.append_assoc]
      · rw [if_neg hc]
        have hrest : (b :: rest).length ≤ n := by
          simp only [List.length_cons] at h ⊢
          omega
        have hih := ih (b :: rest) hrest
        rw [show decode vocab (a :: merge (b :: rest) pair idx) =
            match dictGet vocab a with
            | none => .error .unknownTokenId
            | some v =>
              match decode vocab (merge (b :: rest) pair idx) with
              | .error e => .error e
              | .ok out => .ok (v ++ out) from rfl]
        rw [hih]
        rfl

theorem decode_encodeLoop (vocab : Vocab) (merges : Merges)
    (hm : ∀ p idx, dictGet merges p = some idx →
      ∃ v1 v2, dictGet vocab p.1 = some v1 ∧ dictGet vocab p.2 = some v2 ∧
        dictGet vocab idx = some (v1 ++ v2)) :
    ∀ (fuel : Nat) (tokens : List Nat),
      decode vocab (encodeLoop fuel merges tokens) = decode vocab tokens := by
  intro fuel
  induction fuel with
  | zero => intro tokens; rfl
  | succ n ih =>
    intro tokens
    cases hstep : encodeStep merges tokens with
    | none => simp [encodeLoop, hstep]
    | some t' =>
      simp only [encodeLoop, hstep]
      rw [ih t']
      obtain ⟨pair, idx, hget, hmem, hmin, ht⟩ := encodeStep_some_inv merges tokens t' hstep
      obtain ⟨v1, v2, h1, h2, h3⟩ := hm pair idx hget
      rw [ht]
      exact decode_merge_eq vocab pair idx v1 v2 h1 h2 h3 tokens.length tokens (le_refl _)

theorem decode_ok_key (vocab : Vocab) :
    ∀ (ids : List Nat) (out : List Nat), decode vocab ids = .ok out →
      ∀ id ∈ ids, (dictGet vocab id).isSome := by
  intro ids
  induction ids with
  | nil =>
    intro out _ id hid
    simp at hid
  | cons x rest ih =>
    intro out h id hid
    cases hx : dictGet vocab x with
    | none => simp [decode, hx] at h
    | some v =>
      rcases List.mem_cons.mp hid with h1 | h1
      · rw [h1, hx]
        rfl
      · cases hrest : decode vocab rest with
        | error e => simp [decode, hx, hrest] at h
        | ok out2 => exact ih out2 hrest id h1

/-- Invariant maintained by the training loop at the start of iteration
`i`: the vocabulary has `256 + i` entries, every key is below `256 + 2*i`
(so the id assigned next, `len(vocab) + i = 256 + 2*i`, is fresh), the
byte ids keep their singleton expansions, and every recorded merge points
at vocabulary entries whose expansions concatenate. -/
structure TrainInv (i : Nat) (vocab : Vocab) (merges : Merges) : Prop where
  len_eq : vocab.length = 256 + i
  keys_lt : ∀ k, (dictGet vocab k).isSome → k < 256 + 2 * i
  base : ∀ b, b < 256 → dictGet vocab b = some [b]
  merges_ok : ∀ p idx, dictGet merges p = some idx →
    ∃ v1 v2, dictGet vocab p.1 = some v1 ∧ dictGet vocab p.2 = some v2 ∧
      dictGet vocab idx = some (v1 ++ v2)

theorem trainInv_zero : TrainInv 0 baseVocab [] := by
  constructor
  · rw [baseVocab, vocabRange_length]
  · intro k hk
    rw [baseVocab, dictGet_vocabRange] at hk
    by_cases h : k < 256
    · omega
    · simp [h] at hk
  · intro b hb
    exact baseVocab_get b hb
  · intro p idx h
    simp [dictGet] at h

theorem trainInv_step {i : Nat} {vocab : Vocab} {merges : Merges} {pair : Pair}
    {v1 v2 : ByteSeq} (h : TrainInv i vocab merges)
    (h1 : dictGet vocab pair.1 = some v1) (h2 : dictGet vocab pair.2 = some v2) :
    TrainInv (i + 1) (dictSet vocab (vocab.length + i) (v1 ++ v2))
      (dictSet merges pair (vocab.length + i)) := by
  have hidx : vocab.length + i = 256 + 2 * i := by
    have := h.len_eq
    omega
  have hfresh : dictGet vocab (vocab.length + i) = none := by
    cases hq : dictGet vocab (vocab.length + i) with
    | none => rfl
    | some v =>
      have := h.keys_lt (vocab.length + i) (by rw [hq]; rfl)
      omega
  have hp1 : pair.1 < 256 + 2 * i := h.keys_lt pair.1 (by rw [h1]; rfl)
  have hp2 : pair.2 < 256 + 2 * i := h.keys_lt pair.2 (by rw [h2]; rfl)
  constructor
  · rw [dictSet_length_of_get_none vocab (vocab.length + i) (v1 ++ v2) hfresh]
    have := h.len_eq
    omega
  · intro k hk
    rcases dictGet_dictSet_isSome vocab (vocab.length + i) k (v1 ++ v2) hk with hk1 | hk1
    · omega
    · have := h.keys_lt k hk1
      omega
  · intro b hb
    have hbne : b ≠ vocab.length + i := by omega
    rw [dictGet_dictSet_ne vocab (vocab.length + i) b (v1 ++ v2) hbne]
    exact h.base b hb
  · intro p idx hpidx
    by_cases hp : p = pair
    · subst hp
      rw [dictGet_dictSet_self merges p (vocab.length + i)] at hpidx
      simp only [Option.some.injEq] at hpidx
      refine ⟨v1, v2, ?_, ?_, ?_⟩
      · rw [dictGet_dictSet_ne vocab (vocab.length + i) p.1 (v1 ++ v2) (by omega)]
        exact h1
      · rw [dictGet_dictSet_ne vocab (vocab.length + i) p.2 (v1 ++ v2) (by omega)]
        exact h2
      · rw [← hpidx]
        exact dictGet_dictSet_self vocab (vocab.length + i) (v1 ++ v2)
    · rw [dictGet_dictSet_ne merges pair p (vocab.length + i) hp] at hpidx
      obtain ⟨w1, w2, g1, g2, g3⟩ := h.merges_ok p idx hpidx
      have hq1 : p.1 < 256 + 2 * i := h.keys_lt p.1 (by rw [g1]; rfl)
      have hq2 : p.2 < 256 + 2 * i := h.keys_lt p.2 (by rw [g2]; rfl)
      have hq3 : idx < 256 + 2 * i := h.keys_lt idx (by rw [g3]; rfl)
      refine ⟨w1, w2, ?_, ?_, ?_⟩
      · rw [dictGet_dictSet_ne vocab (vocab.length + i) p.1 (v1 ++ v2) (by omega)]
        exact g1
      · rw [dictGet_dictSet_ne vocab (vocab.length + i) p.2 (v1 ++ v2) (by omega)]
        exact g2
      · rw [dictGet_dictSet_ne vocab (vocab.length + i) idx (v1 ++ v2) (by omega)]
        exact g3

theorem trainLoop_ok :
    ∀ (fuel i : Nat) (vocab : Vocab) (merges : Merges) (ids : List Nat)
      (v2 : Vocab) (m2 : Merges) (ids2 : List Nat),
      TrainInv i vocab merges →
      trainLoop fuel i vocab merges ids = .ok (v2, m2, ids2) →
      ∃ k, k ≤ fuel ∧ TrainInv (i + k) v2 m2 ∧ (k < fuel → ids2.zip ids2.tail = []) := by
  intro fuel
  induction fuel with
  | zero =>
    intro i vocab merges ids v2 m2 ids2 hinv h
    simp only [trainLoop, Except.ok.injEq, Prod.mk.injEq] at h
    obtain ⟨hv, hm, hi⟩ := h
    subst hv
    subst hm
    subst hi
    exact ⟨0, le_refl 0, by simpa using hinv, fun hcon => absurd hcon (Nat.lt_irrefl 0)⟩
  | succ n ih =>
    intro i vocab merges ids v2 m2 ids2 hinv h
    rw [trainLoop] at h
    split at h
    · rename_i hmax
      simp only [Except.ok.injEq, Prod.mk.injEq] at h
      obtain ⟨hv, hm, hi⟩ := h
      subst hv
      subst hm
      subst hi
      refine ⟨0, Nat.zero_le _, by simpa using hinv, fun _ => ?_⟩
      exact get_stats_nil_of_pyMax_none ids hmax
    · rename_i pair hmax
      split at h
      · rename_i w1 w2 hg1 hg2
        have hinv2 := trainInv_step hinv hg1 hg2
        obtain ⟨k, hk, hres, hlt⟩ := ih (i + 1) _ _ _ v2 m2 ids2 hinv2 h
        refine ⟨k + 1, by omega, ?_, fun hcon => hlt (by omega)⟩
        have harith : i + (k + 1) = i + 1 + k := by omega
        rw [harith]
        exact hres
      · simp at h

theorem train_full_ok_loop (tokens : List Nat) (V : Nat) (vocab : Vocab) (merges : Merges)
    (ids2 : List Nat) (h : train_full tokens V = .ok (vocab, merges, ids2)) :
    trainLoop (V - 256) 0 baseVocab [] tokens = .ok (vocab, merges, ids2) ∧
      ids2.length ≠ 0 := by
  unfold train_full at h
  split at h
  · simp at h
  · rename_i v0 m0 ids0 hloop
    split at h
    · simp at h
    · rename_i hlen
      simp only [Except.ok.injEq, Prod.mk.injEq] at h
      obtain ⟨h1, h2, h3⟩ := h
      subst h1
      subst h2
      subst h3
      exact ⟨hloop, hlen⟩

theorem train_bpe_ok_full (tokens : List Nat) (V : Nat) (vocab : Vocab) (merges : Merges)
    (h : train_bpe tokens V = .ok (vocab, merges)) :
    ∃ ids2, train_full tokens V = .ok (vocab, merges, ids2) := by
  unfold train_bpe at h
  split at h
  · simp at h
  · rename_i v0 m0 ids0 hfull
    simp only [Except.ok.injEq, Prod.mk.injEq] at h
    obtain ⟨h1, h2⟩ := h
    subst h1
    subst h2
    exact ⟨ids0, hfull⟩

theorem train_ok_inv (tokens : List Nat) (V : Nat) (vocab : Vocab) (merges : Merges)
    (h : train_bpe tokens V = .ok (vocab, merges)) : ∃ k, TrainInv k vocab merges := by
  obtain ⟨ids2, hfull⟩ := train_bpe_ok_full tokens V vocab merges h
  obtain ⟨hloop, _⟩ := train_full_ok_loop tokens V vocab merges ids2 hfull
  obtain ⟨k, _, hres, _⟩ :=
    trainLoop_ok (V - 256) 0 baseVocab [] tokens vocab merges ids2 trainInv_zero hloop
  exact ⟨k, by simpa using hres⟩

theorem decode_encode_roundtrip (cs : List Nat) (V : Nat) (vocab : Vocab) (merges : Merges)
    (ht : train_bpe cs V = .ok (vocab, merges)) (bs : List Nat) (hb : ∀ b ∈ bs, b < 256) :
    decode vocab (encode merges bs) = .ok bs := by
  obtain ⟨k, hinv⟩ := train_ok_inv cs V vocab merges ht
  unfold encode
  rw [decode_encodeLoop vocab merges hinv.merges_ok bs.length bs]
  exact decode_ok_of_base vocab hinv.base bs hb

theorem trainLoop_nil : ∀ (fuel i : Nat) (vocab : Vocab) (merges : Merges),
    trainLoop fuel i vocab merges [] = .ok (vocab, merges, []) := by
  intro fuel i vocab merges
  cases fuel with
  | zero => rfl
  | succ n => rfl

/-- C1: for every corpus and vocab size whose training succeeds, and every
input text (given by its UTF-8 byte sequence), decoding the encoding
returns the original byte sequence — encode only regroups bytes, so
`decode(encode(t)) == t` for valid UTF-8 `t`. -/
theorem claim1_round_trip (cs : List Nat) (V : Nat) (vocab : Vocab) (merges : Merges)
    (ht : train_bpe cs V = .ok (vocab, merges)) (bs : List Nat) (hb : ∀ b ∈ bs, b < 256) :
    decode vocab (encode merges bs) = .ok bs :=
  decode_encode_roundtrip cs V vocab merges ht bs hb

/-- Witness for C1: after training on "aaaa" with max_vocab_size 257, the
text "abaa" (bytes 97 98 97 97) decodes back to itself. -/
theorem claim1_round_trip_witness :
    decode (baseVocab ++ [(256, [97, 97])]) (encode [((97, 97), 256)] [97, 98, 97, 97]) =
      .ok [97, 98, 97, 97] :=
  claim1_round_trip [97, 97, 97, 97] 257 (baseVocab ++ [(256, [97, 97])]) [((97, 97), 256)]
    (by rfl) [97, 98, 97, 97] (by decide)

/-- C2 (evaluation at the failing input): training on "aaab" with
max_vocab_size 258 performs two merges, but `idx = len(self.vocab) + i`
with the vocabulary already extended inside the loop assigns ids 256 and
258 — not 256 and 257 as the claim states — and id 257 is not a
vocabulary key. -/
theorem claim2_merge_ids :
    train_bpe [97, 97, 97, 98] 258 =
      .ok (baseVocab ++ [(256, [97, 97]), (258, [97, 97, 97])],
        [((97, 97), 256), ((256, 97), 258)]) ∧
    dictGet (baseVocab ++ [(256, [97, 97]), (258, [97, 97, 97])]) 257 = none :=
  ⟨rfl, rfl⟩

/-- C3 counterexample: training with max_vocab_size 100 < 256 does not
fail at all (no InvalidConfig error exists in the code); it returns the
base vocabulary with an empty merge table. -/
theorem claim3_counterexample :
    train_bpe [97, 98] 100 = .ok (baseVocab, []) ∧
      ∀ e, train_bpe [97, 98] 100 ≠ .error e := by
  refine ⟨rfl, ?_⟩
  intro e h
  rw [show train_bpe [97, 98] 100 = .ok (baseVocab, []) from rfl] at h
  exact Except.noConfusion h

/-- C3 amended: training never raises InvalidConfig; with
max_vocab_size < 256 the merge budget `max_vocab_size - 256` is an empty
range, so on a nonempty corpus training succeeds with the 256-entry base
vocabulary and an empty merge table. -/
theorem claim3_amended (tokens : List Nat) (V : Nat) (hV : V < 256) (hne : tokens ≠ []) :
    train_bpe tokens V = .ok (baseVocab, []) := by
  have hfuel : V - 256 = 0 := by omega
  have hlen : ¬ tokens.length = 0 := by
    intro hcon
    exact hne (List.eq_nil_of_length_eq_zero hcon)
  unfold train_bpe train_full
  rw [hfuel]
  simp only [trainLoop]
  simp [hlen]

/-- Witness for C3 amended: max_vocab_size 100 on corpus "a". -/
theorem claim3_amended_witness : train_bpe [97] 100 = .ok (baseVocab, []) :=
  claim3_amended [97] 100 (by omega) (by simp)

/-- C4: each round of the encode loop picks an adjacent pair that is a
merge-table key with minimal merge-table id, replaces its leftmost
non-overlapping occurrences left to right (the `merge` pass), and the
loop stops exactly when no adjacent pair of the current sequence is a
merge-table key. -/
theorem claim4_encode_round (merges : Merges) (tokens t2 : List Nat) :
    (encodeStep merges tokens = some t2 →
      ∃ pair idx, dictGet merges pair = some idx ∧ pair ∈ tokens.zip tokens.tail ∧
        (∀ q ∈ tokens.zip tokens.tail, ∀ j, dictGet merges q = some j → idx ≤ j) ∧
        t2 = merge tokens pair idx) ∧
    (encodeStep merges tokens = none ↔ ∀ q ∈ tokens.zip tokens.tail, dictGet merges q = none) :=
  ⟨encodeStep_some_inv merges tokens t2, encodeStep_none_iff merges tokens⟩

/-- Witness for C4: on tokens "aab" with the single merge (97,97) → 256,
one encode round rewrites to [256, 98] via a minimal known pair. -/
theorem claim4_encode_round_witness :
    ∃ pair idx, dictGet ([((97, 97), 256)] : Merges) pair = some idx ∧
      pair ∈ ([97, 97, 98] : List Nat).zip ([97, 97, 98] : List Nat).tail ∧
      (∀ q ∈ ([97, 97, 98] : List Nat).zip ([97, 97, 98] : List Nat).tail, ∀ j,
        dictGet ([((97, 97), 256)] : Merges) q = some j → idx ≤ j) ∧
      ([256, 98] : List Nat) = merge [97, 97, 98] pair idx :=
  (claim4_encode_round [((97, 97), 256)] [97, 97, 98] [256, 98]).1 rfl

/-- C5: decode fails with the unknown-token-id error exactly when some id
of the input is absent from the vocabulary, and succeeds (returns ok)
whenever every id is a vocabulary key. -/
theorem claim5_decode_unknown (vocab : Vocab) (ids : List Nat) :
    (decode vocab ids = .error .unknownTokenId ↔ ∃ id ∈ ids, dictGet vocab id = none) ∧
    ((∀ id ∈ ids, (dictGet vocab id).isSome) → ∃ out, decode vocab ids = .ok out) := by
  have hiff : decode vocab ids = .error .unknownTokenId ↔
      ∃ id ∈ ids, dictGet vocab id = none := by
    induction ids with
    | nil => simp [decode]
    | cons x rest ih =>
      cases hx : dictGet vocab x with
      | none =>
        constructor
        · intro _
          exact ⟨x, List.mem_cons_self x rest, hx⟩
        · intro _
          simp [decode, hx]
      | some v =>
        cases hrest : decode vocab rest with
        | error e =>
          cases e
          constructor
          · intro _
            obtain ⟨id, hid, hnone⟩ := ih.mp hrest
            exact ⟨id, List.mem_cons_of_mem x hid, hnone⟩
          · intro _
            simp [decode, hx, hrest]
        | ok out =>
          constructor
          · intro hcon
            simp [decode, hx, hrest] at hcon
          · rintro ⟨id, hid, hnone⟩
            rcases List.mem_cons.mp hid with h1 | h1
            · rw [h1, hx] at hnone
              exact Option.noConfusion hnone
            · have hcon := ih.mpr ⟨id, h1, hnone⟩
              rw [hrest] at hcon
              exact Except.noConfusion hcon
  refine ⟨hiff, ?_⟩
  intro hall
  cases hdec : decode vocab ids with
  | ok out => exact ⟨out, rfl⟩
  | error e =>
    cases e
    obtain ⟨id, hid, hnone⟩ := hiff.mp hdec
    have hcon := hall id hid
    rw [hnone] at hcon
    exact Bool.noConfusion hcon

/-- Witness for C5: decoding [999999] against the base vocabulary raises
the unknown-token-id error. -/
theorem claim5_decode_unknown_witness :
    decode baseVocab [999999] = .error .unknownTokenId :=
  (claim5_decode_unknown baseVocab [999999]).1.mpr
    ⟨999999, List.mem_cons_self 999999 [], rfl⟩

/-- C6: for max_vocab_size V ≥ 256, a successful training run yields a
vocabulary with at most V entries, and with exactly V entries unless the
loop stopped early with no adjacent pairs left in the working sequence. -/
theorem claim6_vocab_size_bound (tokens : List Nat) (V : Nat) (vocab : Vocab)
    (merges : Merges) (ids2 : List Nat) (hV : 256 ≤ V)
    (h : train_full tokens V = .ok (vocab, merges, ids2)) :
    vocab.length ≤ V ∧ (vocab.length ≠ V → ids2.zip ids2.tail = []) := by
  obtain ⟨hloop, _⟩ := train_full_ok_loop tokens V vocab merges ids2 h
  obtain ⟨k, hk, hres, hlt⟩ :=
    trainLoop_ok (V - 256) 0 baseVocab [] tokens vocab merges ids2 trainInv_zero hloop
  have hlen := hres.len_eq
  constructor
  · omega
  · intro hne2
    exact hlt (by omega)

/-- Witness for C6: training on "aaaa" with max_vocab_size 257 stops with
257 vocabulary entries and working sequence [256, 256]. -/
theorem claim6_vocab_size_bound_witness :
    (baseVocab ++ [(256, [97, 97])]).length ≤ 257 ∧
      ((baseVocab ++ [(256, [97, 97])]).length ≠ 257 →
        ([256, 256] : List Nat).zip ([256, 256] : List Nat).tail = []) :=
  claim6_vocab_size_bound [97, 97, 97, 97] 257 (baseVocab ++ [(256, [97, 97])])
    [((97, 97), 256)] [256, 256] (by omega) rfl

/-- C7: training on "aaaa" (bytes 97 97 97 97) with max_vocab_size 257
learns exactly the single merge (97, 97) → 256; encode of "aaaa" gives
[256, 256] and decode of [256, 256] gives back "aaaa". -/
theorem claim7_aaaa :
    train_bpe [97, 97, 97, 97] 257 = .ok (baseVocab ++ [(256, [97, 97])], [((97, 97), 256)]) ∧
    encode [((97, 97), 256)] [97, 97, 97, 97] = [256, 256] ∧
    decode (baseVocab ++ [(256, [97, 97])]) [256, 256] = .ok [97, 97, 97, 97] :=
  ⟨rfl, rfl, rfl⟩

/-- C8 (evaluation at the failing input): training on the empty corpus
raises the ZeroDivisionError of the final compression-ratio print
(model.py line 80) instead of returning the base vocabulary with an empty
merge table. -/
theorem claim8_empty_corpus (V : Nat) : train_bpe [] V = .error .zeroDivision := by
  unfold train_bpe train_full
  rw [trainLoop_nil (V - 256) 0 baseVocab []]
  rfl

/-- C9: every id produced by encode under a successfully trained state is
a vocabulary key, so decode applied to encode output never fails with the
unknown-id error. -/
theorem claim9_encode_in_vocab (cs : List Nat) (V : Nat) (vocab : Vocab) (merges : Merges)
    (ht : train_bpe cs V = .ok (vocab, merges)) (bs : List Nat) (hb : ∀ b ∈ bs, b < 256) :
    (∀ id ∈ encode merges bs, (dictGet vocab id).isSome) ∧
      ∃ out, decode vocab (encode merges bs) = .ok out := by
  have h := decode_encode_roundtrip cs V vocab merges ht bs hb
  exact ⟨decode_ok_key vocab (encode merges bs) bs h, ⟨bs, h⟩⟩

/-- Witness for C9: the state trained on "aaaa" with max_vocab_size 257,
applied to the text "aab". -/
theorem claim9_encode_in_vocab_witness :
    (∀ id ∈ encode [((97, 97), 256)] [97, 97, 98],
      (dictGet (baseVocab ++ [(256, [97, 97])]) id).isSome) ∧
      ∃ out, decode (baseVocab ++ [(256, [97, 97])]) (encode [((97, 97), 256)] [97, 97, 98]) =
        .ok out :=
  claim9_encode_in_vocab [97, 97, 97, 97] 257 (baseVocab ++ [(256, [97, 97])])
    [((97, 97), 256)] (by rfl) [97, 97, 98] (by decide)

/-- C10: the encode loop terminates — every non-stopping iteration
strictly decreases the sequence length (a well-founded measure), and any
fuel of at least the sequence length computes the loop's limit, which is
what `encode` returns. -/
theorem claim10_encode_terminates (merges : Merges) (tokens t2 : List Nat) :
    (encodeStep merges tokens = some t2 → t2.length < tokens.length) ∧
    (∀ fuel, tokens.length ≤ fuel → encodeLoop fuel merges tokens = encode merges tokens) := by
  constructor
  · exact encodeStep_length_lt merges tokens t2
  · intro fuel hf
    unfold encode
    exact encodeLoop_fuel_congr merges fuel tokens.length tokens hf (le_refl _)

/-- Witness for C10: one step on [97, 97] shrinks the sequence, and fuel 5
already computes encode of [97, 97]. -/
theorem claim10_encode_terminates_witness :
    (([256] : List Nat).length < ([97, 97] : List Nat).length) ∧
      encodeLoop 5 [((97, 97), 256)] [97, 97] = encode [((97, 97), 256)] [97, 97] :=
  ⟨(claim10_encode_terminates [((97, 97), 256)] [97, 97] [256]).1 rfl,
   (claim10_encode_terminates [((97, 97), 256)] [97, 97] [256]).2 5 (by decide)⟩

end BPETok
